import Mathlib

/-!
Verification of the PGM-index benchmarking harness
(`src/experiments/pgm_query.cpp`, `src/examples/playground.cpp`).

Keys and positions are modelled as `Nat`; out-of-range reads of the
backing `std::vector` are modelled with `List.getD _ _ 0` (the C++ code
performs the read unconditionally, so the embedding records which index
is read and returns a default for an out-of-range index).
-/

namespace PGM

/-- Embedding of the halving loop of `lower_bound_branchless`
(`src/experiments/pgm_query.cpp` lines 40-53).  `f` is the offset of the
iterator `first` from the beginning of the dataset and `n` the current
window size.  Each iteration computes `half = n / 2`, compares the element
at `first + half` with the target and selects the new `first` without a
branch; the prefetch hints have no semantic content and are omitted.
Returns the final offset of `first` when `n <= 1`. -/
def lbbLoop (D : List Nat) (v : Nat) (f n : Nat) : Nat :=
  if h : 1 < n then
    lbbLoop D v (if D.getD (f + n / 2) 0 < v then f + n / 2 else f) (n - n / 2)
  else
    f
termination_by n
decreasing_by
  omega

/-- Embedding of `lower_bound_branchless` over the window `[lo, hi)` of
dataset `D`: run the halving loop starting from `first = lo`,
`n = hi - lo`, then return `std::next(first, comp(*first, value))`,
i.e. the final offset plus one exactly when the element there is
less than the key. -/
def lower_bound_branchless (D : List Nat) (v : Nat) (lo hi : Nat) : Nat :=
  let f := lbbLoop D v lo (hi - lo)
  f + (if D.getD f 0 < v then 1 else 0)

/-- The sequence of dataset indices read by the halving loop of
`lower_bound_branchless` (one read per iteration, at `first + half`). -/
def lbbLoopReads (D : List Nat) (v : Nat) (f n : Nat) : List Nat :=
  if h : 1 < n then
    (f + n / 2) ::
      lbbLoopReads D v (if D.getD (f + n / 2) 0 < v then f + n / 2 else f) (n - n / 2)
  else
    []
termination_by n
decreasing_by
  omega

/-- All dataset indices read by `lower_bound_branchless D v lo hi`: the
loop reads plus the final unconditional read of `*first`. -/
def branchlessReads (D : List Nat) (v : Nat) (lo hi : Nat) : List Nat :=
  lbbLoopReads D v lo (hi - lo) ++ [lbbLoop D v lo (hi - lo)]

/-- Embedding of the loop of `std::lower_bound` (libstdc++): while the
length is positive, probe the middle element; on `< value` descend right
past the middle, otherwise keep the left half including the middle. -/
def lbStdLoop (D : List Nat) (v : Nat) (f n : Nat) : Nat :=
  if h : 0 < n then
    if D.getD (f + n / 2) 0 < v then
      lbStdLoop D v (f + n / 2 + 1) (n - n / 2 - 1)
    else
      lbStdLoop D v f (n / 2)
  else
    f
termination_by n
decreasing_by
  · omega
  · omega

/-- Embedding of `std::lower_bound` over the window `[lo, hi)` of `D`. -/
def lower_bound (D : List Nat) (v : Nat) (lo hi : Nat) : Nat :=
  lbStdLoop D v lo (hi - lo)

/-- `r` is the lower-bound position of key `k` inside the window
`[lo, hi)` of `D`: everything strictly before `r` (within the window) is
less than `k` and everything from `r` on (within the window) is at least
`k`. -/
def IsLB (D : List Nat) (k lo hi r : Nat) : Prop :=
  lo ≤ r ∧ r ≤ hi ∧
    (∀ j, lo ≤ j → j < r → D.getD j 0 < k) ∧
    (∀ j, r ≤ j → j < hi → k ≤ D.getD j 0)

/-- Datasets are sorted ascending, ties permitted. -/
def SortedLE (D : List Nat) : Prop :=
  List.Pairwise (· ≤ ·) D

/-- Support of `std::uniform_int_distribution<size_t>(0, b)`: per the
C++ standard the distribution produces integers in the closed interval
`[0, b]`, both bounds included. -/
def distSupport (b idx : Nat) : Prop :=
  idx ≤ b

/-- Embedding of `generate_queries` (`src/experiments/pgm_query.cpp`
lines 85-104), parameterized over the stream `draws` of values produced
by the seeded `std::mt19937` engine through
`uniform_int_distribution<size_t>(0, dataset.size())`; every draw lies
in `distSupport dataset.length`.  Each query pairs the key read at the
drawn index with the exact lower bound of that key over the whole
dataset computed by `std::lower_bound`. -/
def generate_queries (dataset : List Nat) (draws : Nat → Nat) (N : Nat) :
    List (Nat × Nat) :=
  (List.range N).map fun i =>
    (dataset.getD (draws i) 0,
      lower_bound dataset (dataset.getD (draws i) 0) 0 dataset.length)

/-- The comparison made by the measurement lambda of
`measure_perfomance` for one query `q = (key, correct_idx)`: the
approximate range returned by the index (`srch`) is refined with the
branchless search and the resulting position is compared with
`correct_idx`.  `true` means the `lb_position != correct_idx` branch is
taken. -/
def mismatch (dataset : List Nat) (srch : Nat → Nat × Nat) (q : Nat × Nat) :
    Bool :=
  lower_bound_branchless dataset q.1 (srch q.1).1 (srch q.1).2 != q.2

/-- One iteration of the measurement lambda of `measure_perfomance`
(`src/experiments/pgm_query.cpp` lines 183-211) acting on the tally
`t = (pred_correct, pred_incorrect)`: on mismatch `pred_incorrect` is
incremented, otherwise `pred_correct` is. -/
def oracleStep (dataset : List Nat) (srch : Nat → Nat × Nat)
    (t : Nat × Nat) (q : Nat × Nat) : Nat × Nat :=
  if mismatch dataset srch q then (t.1, t.2 + 1) else (t.1 + 1, t.2)

/-- The tally `(pred_correct, pred_incorrect)` after the whole workload
has been processed by `query_time`'s loop, starting from `(0, 0)`. -/
def measureTally (dataset : List Nat) (srch : Nat → Nat × Nat)
    (queries : List (Nat × Nat)) : Nat × Nat :=
  queries.foldl (oracleStep dataset srch) (0, 0)

/-- Outcome of dataset loading: `fatal` models
`exit(EXIT_FAILURE)` after the diagnostic on standard error; `ok`
carries the returned buffer. -/
inductive LoadResult where
  | fatal : LoadResult
  | ok : List Nat → LoadResult
deriving DecidableEq

/-- Embedding of `load_data` (`src/experiments/pgm_query.cpp` lines
61-80 and `src/examples/playground.cpp`).  The file is `none` when it
cannot be opened; otherwise `some (size, vals)` holds the 64-bit
element-count header and the elements actually present after it.
`data.resize(size)` value-initializes `size` elements and the following
`in.read` overwrites at most `size` of them with file contents. -/
def load_data (file : Option (Nat × List Nat)) : LoadResult :=
  match file with
  | none => LoadResult.fatal
  | some (size, vals) =>
      LoadResult.ok (vals.take size ++ List.replicate (size - vals.length) 0)

/-- Modelled from the spec: the implementation of
`pgm::DynamicPGMIndex` (`include/pgm/pgm_index_dynamic.hpp`) is not
among the sources under study; spec §6 specifies it as a std::map-like
ordered container.  Its observable state is modelled as a key-sorted
association list of (key, value) pairs. -/
abbrev DynPGM : Type :=
  List (Nat × Nat)

/-- Modelled from the spec: a `DynamicPGMIndex` is "created empty". -/
def DynPGM.empty : DynPGM :=
  []

/-- Modelled from the spec: `insert_or_assign(key, value)` inserts a new
key or updates the value of an existing one; always succeeds. -/
def DynPGM.insert_or_assign : DynPGM → Nat → Nat → DynPGM
  | [], k, v => [(k, v)]
  | (k', v') :: rest, k, v =>
    if k < k' then (k, v) :: (k', v') :: rest
    else if k = k' then (k, v) :: rest
    else (k', v') :: DynPGM.insert_or_assign rest k v

/-- Modelled from the spec: `erase(key)` removes a key if present;
succeeds even if the key is absent (no-op). -/
def DynPGM.erase : DynPGM → Nat → DynPGM
  | [], _ => []
  | (k', v') :: rest, k =>
    if k = k' then rest else (k', v') :: DynPGM.erase rest k

/-- Modelled from the spec: `find(key)` returns a located-element marker
if present (`some value`), the end-of-collection marker (`none`)
otherwise. -/
def DynPGM.find : DynPGM → Nat → Option Nat
  | [], _ => none
  | (k', v') :: rest, k =>
    if k = k' then some v' else DynPGM.find rest k

/-- Modelled from the spec: `size()` reports the number of stored
elements; introspection, no side effects. -/
def DynPGM.size (s : DynPGM) : Nat :=
  s.length

/-- The state invariant of the modelled index: keys strictly increasing
(hence unique), as in an ordered map. -/
def DynPGM.KeysSorted (s : DynPGM) : Prop :=
  List.Pairwise (fun p q => p.1 < q.1) s

/-- The operations of the external mutable index as used by the dynamic
workload driver; the index is an external collaborator accessed only
through this contract (spec §2, §6). -/
structure IndexOps (S : Type) where
  empty : S
  insert_or_assign : S → Nat → Nat → S
  erase : S → Nat → S
  find : S → Nat → Option Nat
  size : S → Nat

/-- The spec-modelled `DynamicPGMIndex` packaged as the driver's index
operations. -/
def dynOps : IndexOps DynPGM where
  empty := DynPGM.empty
  insert_or_assign := DynPGM.insert_or_assign
  erase := DynPGM.erase
  find := DynPGM.find
  size := DynPGM.size

/-- BulkInsert phase of the dynamic workload driver
(`src/examples/playground.cpp` lines 133-136):
`dynamic_pgm.insert_or_assign(*it, 1)` for each element of the sorted
sample vector in order. -/
def bulkInsert {S : Type} (ops : IndexOps S) (s : S) (data : List Nat) : S :=
  data.foldl (fun t k => ops.insert_or_assign t k 1) s

/-- HalfDelete phase of the dynamic workload driver
(`src/examples/playground.cpp` lines 146-152): walk the sorted samples
with a counter starting at 0 and erase the sample whenever the counter
is even.  Returns the final index state together with the keys actually
passed to `erase`, in order. -/
def halfDelete {S : Type} (ops : IndexOps S) : S → List Nat → Nat → S × List Nat
  | s, [], _ => (s, [])
  | s, k :: rest, counter =>
    if counter % 2 = 0 then
      ((halfDelete ops (ops.erase s k) rest (counter + 1)).1,
        k :: (halfDelete ops (ops.erase s k) rest (counter + 1)).2)
    else
      halfDelete ops s rest (counter + 1)

/-- Observable trace of one run of the dynamic workload driver. -/
structure DriverTrace (S : Type) where
  afterInsert : S
  reportedCount : Nat
  eraseCalls : List Nat
  final : S
  aborted : Bool

/-- Embedding of the dynamic workload driver
(`src/examples/playground.cpp` lines 129-152): construct an empty index,
bulk-insert every sample with value 1, print the reported element count,
then run the HalfDelete loop.  The driver is straight-line code: it
proceeds from the report to the deletion phase unconditionally;
`aborted` records whether any step terminated the run early (no step
does). -/
def driverRun {S : Type} (ops : IndexOps S) (data : List Nat) : DriverTrace S :=
  { afterInsert := bulkInsert ops ops.empty data
    reportedCount := ops.size (bulkInsert ops ops.empty data)
    eraseCalls := (halfDelete ops (bulkInsert ops ops.empty data) data 0).2
    final := (halfDelete ops (bulkInsert ops ops.empty data) data 0).1
    aborted := false }

/-- An index implementation whose size report is broken (always 0),
used to exhibit the driver's behavior when the reported cardinality
diverges from the expected cardinality. -/
def brokenSizeOps : IndexOps Nat where
  empty := 0
  insert_or_assign := fun s _ _ => s + 1
  erase := fun s _ => s
  find := fun _ _ => none
  size := fun _ => 0

theorem sorted_getD_le (D : List Nat) (hD : SortedLE D) {i j : Nat}
    (hij : i ≤ j) (hj : j < D.length) : D.getD i 0 ≤ D.getD j 0 := by
  rcases Nat.eq_or_lt_of_le hij with rfl | hlt
  · exact Nat.le_refl _
  · have hi : i < D.length := Nat.lt_trans hlt hj
    rw [List.getD_eq_getElem D 0 hi, List.getD_eq_getElem D 0 hj]
    exact List.pairwise_iff_getElem.mp hD i j hi hj hlt

/-- The halving loop never moves `first` left, and ends with `first`
strictly inside the initial window `[f, f + n)` (for a non-empty
window).  No hypotheses on the dataset are needed. -/
theorem lbbLoop_bounds (D : List Nat) (v : Nat) :
    ∀ n f, 1 ≤ n → f ≤ lbbLoop D v f n ∧ lbbLoop D v f n + 1 ≤ f + n := by
  intro n
  induction n using Nat.strong_induction_on with
  | _ n ih =>
    intro f hn
    rw [lbbLoop]
    by_cases h : 1 < n
    · rw [dif_pos h]
      by_cases hc : D.getD (f + n / 2) 0 < v
      · rw [if_pos hc]
        have h1 := ih (n - n / 2) (by omega) (f + n / 2) (by omega)
        omega
      · rw [if_neg hc]
        have h1 := ih (n - n / 2) (by omega) f (by omega)
        omega
    · rw [dif_neg h]
      omega

/-- Main invariant of the halving loop on a sorted dataset: when it
stops, every window element strictly before the final `first` is less
than the key, and every window element strictly after it is at least the
key. -/
theorem lbbLoop_inv (D : List Nat) (v : Nat) (hD : SortedLE D) :
    ∀ n f, 1 ≤ n → f + n ≤ D.length →
      (∀ j, f ≤ j → j < lbbLoop D v f n → D.getD j 0 < v) ∧
      (∀ j, lbbLoop D v f n < j → j < f + n → v ≤ D.getD j 0) := by
  intro n
  induction n using Nat.strong_induction_on with
  | _ n ih =>
    intro f hn hfn
    rw [lbbLoop]
    by_cases h : 1 < n
    · rw [dif_pos h]
      by_cases hc : D.getD (f + n / 2) 0 < v
      · rw [if_pos hc]
        obtain ⟨A1, B1⟩ := ih (n - n / 2) (by omega) (f + n / 2) (by omega) (by omega)
        refine ⟨fun j hj1 hj2 => ?_, fun j hj1 hj2 => B1 j hj1 (by omega)⟩
        by_cases hj : f + n / 2 ≤ j
        · exact A1 j hj hj2
        · have hmono : D.getD j 0 ≤ D.getD (f + n / 2) 0 :=
            sorted_getD_le D hD (by omega) (by omega)
          omega
      · rw [if_neg hc]
        obtain ⟨A1, B1⟩ := ih (n - n / 2) (by omega) f (by omega) (by omega)
        refine ⟨A1, fun j hj1 hj2 => ?_⟩
        by_cases hj : j < f + (n - n / 2)
        · exact B1 j hj1 hj
        · have hmono : D.getD (f + n / 2) 0 ≤ D.getD j 0 :=
            sorted_getD_le D hD (by omega) (by omega)
          omega
    · rw [dif_neg h]
      exact ⟨fun j hj1 hj2 => by omega, fun j hj1 hj2 => by omega⟩

/-- On a sorted dataset and a non-empty in-bounds window, the branchless
refinement returns the lower-bound position of the window. -/
theorem branchless_isLB (D : List Nat) (v : Nat) (hD : SortedLE D)
    {lo hi : Nat} (hlh : lo < hi) (hhi : hi ≤ D.length) :
    IsLB D v lo hi (lower_bound_branchless D v lo hi) := by
  have hn : 1 ≤ hi - lo := by omega
  obtain ⟨hb1, hb2⟩ := lbbLoop_bounds D v (hi - lo) lo hn
  obtain ⟨A, B⟩ := lbbLoop_inv D v hD (hi - lo) lo hn (by omega)
  rw [lower_bound_branchless]
  by_cases hc : D.getD (lbbLoop D v lo (hi - lo)) 0 < v
  · rw [if_pos hc]
    refine ⟨by omega, by omega, fun j hj1 hj2 => ?_, fun j hj1 hj2 => ?_⟩
    · by_cases hj : j < lbbLoop D v lo (hi - lo)
      · exact A j hj1 hj
      · have hje : j = lbbLoop D v lo (hi - lo) := by omega
        rw [hje]
        exact hc
    · exact B j (by omega) (by omega)
  · rw [if_neg hc]
    refine ⟨by omega, by omega, fun j hj1 hj2 => A j hj1 (by omega), fun j hj1 hj2 => ?_⟩
    by_cases hj : lbbLoop D v lo (hi - lo) < j
    · exact B j hj (by omega)
    · have hje : j = lbbLoop D v lo (hi - lo) := by omega
      rw [hje]
      omega

/-- Invariant of the `std::lower_bound` loop: the returned offset splits
the window into a strictly-smaller prefix and an at-least-`v` suffix. -/
theorem lbStdLoop_inv (D : List Nat) (v : Nat) (hD : SortedLE D) :
    ∀ n f, f + n ≤ D.length →
      f ≤ lbStdLoop D v f n ∧ lbStdLoop D v f n ≤ f + n ∧
      (∀ j, f ≤ j → j < lbStdLoop D v f n → D.getD j 0 < v) ∧
      (∀ j, lbStdLoop D v f n ≤ j → j < f + n → v ≤ D.getD j 0) := by
  intro n
  induction n using Nat.strong_induction_on with
  | _ n ih =>
    intro f hfn
    rw [lbStdLoop]
    by_cases h : 0 < n
    · rw [dif_pos h]
      by_cases hc : D.getD (f + n / 2) 0 < v
      · rw [if_pos hc]
        obtain ⟨h1, h2, A1, B1⟩ :=
          ih (n - n / 2 - 1) (by omega) (f + n / 2 + 1) (by omega)
        refine ⟨by omega, by omega, fun j hj1 hj2 => ?_, fun j hj1 hj2 => B1 j hj1 (by omega)⟩
        by_cases hj : f + n / 2 + 1 ≤ j
        · exact A1 j hj hj2
        · have hmono : D.getD j 0 ≤ D.getD (f + n / 2) 0 :=
            sorted_getD_le D hD (by omega) (by omega)
          omega
      · rw [if_neg hc]
        obtain ⟨h1, h2, A1, B1⟩ := ih (n / 2) (by omega) f (by omega)
        refine ⟨by omega, by omega, A1, fun j hj1 hj2 => ?_⟩
        by_cases hj : j < f + n / 2
        · exact B1 j hj1 hj
        · have hmono : D.getD (f + n / 2) 0 ≤ D.getD j 0 :=
            sorted_getD_le D hD (by omega) (by omega)
          omega
    · rw [dif_neg h]
      exact ⟨by omega, by omega, fun j hj1 hj2 => by omega, fun j hj1 hj2 => by omega⟩

/-- On a sorted dataset, `std::lower_bound` over a window returns the
window's lower-bound position. -/
theorem lower_bound_isLB (D : List Nat) (v : Nat) (hD : SortedLE D)
    {lo hi : Nat} (hlh : lo ≤ hi) (hhi : hi ≤ D.length) :
    IsLB D v lo hi (lower_bound D v lo hi) := by
  obtain ⟨h1, h2, A, B⟩ := lbStdLoop_inv D v hD (hi - lo) lo (by omega)
  rw [lower_bound]
  exact ⟨h1, by omega, A, fun j hj1 hj2 => B j hj1 (by omega)⟩

theorem DynPGM.find_insert_self (s : DynPGM) (k v : Nat) :
    (s.insert_or_assign k v).find k = some v := by
  induction s with
  | nil => simp [DynPGM.insert_or_assign, DynPGM.find]
  | cons p rest ih =>
    obtain ⟨k', v'⟩ := p
    by_cases h1 : k < k'
    · simp [DynPGM.insert_or_assign, h1, DynPGM.find]
    · by_cases h2 : k = k'
      · simp [DynPGM.insert_or_assign, h1, h2, DynPGM.find]
      · simp [DynPGM.insert_or_assign, h1, h2, DynPGM.find, ih]

theorem DynPGM.find_insert_ne (s : DynPGM) (k v q : Nat) (hne : q ≠ k) :
    (s.insert_or_assign k v).find q = s.find q := by
  induction s with
  | nil => simp [DynPGM.insert_or_assign, DynPGM.find, hne]
  | cons p rest ih =>
    obtain ⟨k', v'⟩ := p
    by_cases h1 : k < k'
    · simp [DynPGM.insert_or_assign, h1, DynPGM.find, hne]
    · by_cases h2 : k = k'
      · subst h2
        simp [DynPGM.insert_or_assign, h1, DynPGM.find, hne]
      · simp [DynPGM.insert_or_assign, h1, h2, DynPGM.find, ih]

theorem DynPGM.length_insert_fresh (s : DynPGM) (k v : Nat)
    (h : s.find k = none) : (s.insert_or_assign k v).length = s.length + 1 := by
  induction s with
  | nil => simp [DynPGM.insert_or_assign]
  | cons p rest ih =>
    obtain ⟨k', v'⟩ := p
    rw [DynPGM.find] at h
    by_cases h2 : k = k'
    · simp [h2] at h
    · rw [if_neg h2] at h
      by_cases h1 : k < k'
      · simp [DynPGM.insert_or_assign, h1]
      · simp [DynPGM.insert_or_assign, h1, h2, ih h]

theorem DynPGM.mem_insert (s : DynPGM) (k v : Nat) :
    ∀ q ∈ s.insert_or_assign k v, q ∈ s ∨ q.1 = k := by
  induction s with
  | nil =>
    intro q hq
    rw [DynPGM.insert_or_assign] at hq
    simp at hq
    simp [hq]
  | cons p rest ih =>
    obtain ⟨k', v'⟩ := p
    intro q hq
    by_cases h1 : k < k'
    · rw [DynPGM.insert_or_assign, if_pos h1] at hq
      simp at hq
      rcases hq with h | h | h
      · simp [h]
      · simp [h]
      · simp [h]
    · by_cases h2 : k = k'
      · rw [DynPGM.insert_or_assign, if_neg h1, if_pos h2] at hq
        simp at hq
        rcases hq with h | h
        · simp [h]
        · simp [h]
      · rw [DynPGM.insert_or_assign, if_neg h1, if_neg h2] at hq
        simp at hq
        rcases hq with h | h
        · simp [h]
        · rcases ih q h with h3 | h3
          · simp [h3]
          · simp [h3]

theorem DynPGM.keysSorted_insert (s : DynPGM) (k v : Nat)
    (hs : s.KeysSorted) : (s.insert_or_assign k v).KeysSorted := by
  induction s with
  | nil =>
    rw [DynPGM.insert_or_assign]
    exact List.pairwise_singleton _ _
  | cons p rest ih =>
    obtain ⟨k', v'⟩ := p
    rw [DynPGM.KeysSorted, List.pairwise_cons] at hs
    obtain ⟨hhead, hrest⟩ := hs
    by_cases h1 : k < k'
    · rw [DynPGM.insert_or_assign, if_pos h1]
      rw [DynPGM.KeysSorted, List.pairwise_cons]
      refine ⟨?_, List.pairwise_cons.mpr ⟨hhead, hrest⟩⟩
      intro q hq
      simp at hq
      rcases hq with h | h
      · simp [h, h1]
      · have := hhead q h
        omega
    · by_cases h2 : k = k'
      · rw [DynPGM.insert_or_assign, if_neg h1, if_pos h2]
        rw [DynPGM.KeysSorted, List.pairwise_cons]
        refine ⟨fun q hq => ?_, hrest⟩
        have := hhead q hq
        omega
      · rw [DynPGM.insert_or_assign, if_neg h1, if_neg h2]
        rw [DynPGM.KeysSorted, List.pairwise_cons]
        refine ⟨fun q hq => ?_, ih hrest⟩
        rcases DynPGM.mem_insert rest k v q hq with h3 | h3
        · exact hhead q h3
        · simp [h3]
          omega

theorem DynPGM.erase_sublist (s : DynPGM) (k : Nat) :
    List.Sublist (s.erase k) s := by
  induction s with
  | nil => simp [DynPGM.erase]
  | cons p rest ih =>
    obtain ⟨k', v'⟩ := p
    rw [DynPGM.erase]
    by_cases h : k = k'
    · rw [if_pos h]
      exact List.sublist_cons_self _ _
    · rw [if_neg h]
      exact List.Sublist.cons₂ _ ih

theorem DynPGM.keysSorted_erase (s : DynPGM) (k : Nat)
    (hs : s.KeysSorted) : (s.erase k).KeysSorted :=
  hs.sublist (DynPGM.erase_sublist s k)

theorem DynPGM.erase_absent (s : DynPGM) (k : Nat) (h : s.find k = none) :
    s.erase k = s := by
  induction s with
  | nil => rfl
  | cons p rest ih =>
    obtain ⟨k', v'⟩ := p
    rw [DynPGM.find] at h
    by_cases h2 : k = k'
    · simp [h2] at h
    · rw [if_neg h2] at h
      rw [DynPGM.erase, if_neg h2, ih h]

theorem DynPGM.find_erase_ne (s : DynPGM) (k q : Nat) (hne : q ≠ k) :
    (s.erase k).find q = s.find q := by
  induction s with
  | nil => rfl
  | cons p rest ih =>
    obtain ⟨k', v'⟩ := p
    rw [DynPGM.erase]
    by_cases h : k = k'
    · rw [if_pos h, DynPGM.find, if_neg (by omega : ¬ q = k')]
    · rw [if_neg h, DynPGM.find, DynPGM.find]
      by_cases hq : q = k'
      · rw [if_pos hq, if_pos hq]
      · rw [if_neg hq, if_neg hq, ih]

theorem DynPGM.find_none_of_keys_lt (s : DynPGM) (k : Nat)
    (h : ∀ p ∈ s, k < p.1) : s.find k = none := by
  induction s with
  | nil => rfl
  | cons p rest ih =>
    obtain ⟨k', v'⟩ := p
    have h1 : k < k' := h (k', v') (by simp)
    rw [DynPGM.find, if_neg (by omega : ¬ k = k')]
    exact ih fun q hq => h q (by simp [hq])

theorem DynPGM.find_erase_self (s : DynPGM) (k : Nat)
    (hs : s.KeysSorted) : (s.erase k).find k = none := by
  induction s with
  | nil => rfl
  | cons p rest ih =>
    obtain ⟨k', v'⟩ := p
    rw [DynPGM.KeysSorted, List.pairwise_cons] at hs
    obtain ⟨hhead, hrest⟩ := hs
    rw [DynPGM.erase]
    by_cases h : k = k'
    · rw [if_pos h]
      exact DynPGM.find_none_of_keys_lt rest k fun q hq => by
        have := hhead q hq
        omega
    · rw [if_neg h, DynPGM.find, if_neg h]
      exact ih hrest

theorem bulkInsert_cons {S : Type} (ops : IndexOps S) (s : S) (a : Nat)
    (data : List Nat) :
    bulkInsert ops s (a :: data) = bulkInsert ops (ops.insert_or_assign s a 1) data :=
  rfl

theorem dynOps_insert_or_assign : dynOps.insert_or_assign = DynPGM.insert_or_assign :=
  rfl

theorem dynOps_erase : dynOps.erase = DynPGM.erase :=
  rfl

theorem dynOps_find : dynOps.find = DynPGM.find :=
  rfl

theorem dynOps_size : dynOps.size = DynPGM.size :=
  rfl

theorem dynOps_empty : dynOps.empty = DynPGM.empty :=
  rfl

theorem bulkInsert_find_not_mem (data : List Nat) (s : DynPGM) (k : Nat)
    (h : k ∉ data) : (bulkInsert dynOps s data).find k = s.find k := by
  induction data generalizing s with
  | nil => rfl
  | cons a rest ih =>
    rw [bulkInsert_cons]
    have hka : k ≠ a := fun he => h (by simp [he])
    rw [ih _ (fun hm => h (by simp [hm]))]
    exact DynPGM.find_insert_ne s a 1 k hka

theorem bulkInsert_find_mem (data : List Nat) (s : DynPGM) (k : Nat)
    (hmem : k ∈ data) (hnd : data.Nodup) :
    (bulkInsert dynOps s data).find k = some 1 := by
  induction data generalizing s with
  | nil => simp at hmem
  | cons a rest ih =>
    rw [List.nodup_cons] at hnd
    rw [bulkInsert_cons]
    by_cases hk : k = a
    · subst hk
      rw [bulkInsert_find_not_mem rest _ k hnd.1]
      exact DynPGM.find_insert_self s k 1
    · have hkr : k ∈ rest := by
        rcases List.mem_cons.mp hmem with h | h
        · exact absurd h hk
        · exact h
      exact ih _ hkr hnd.2

theorem bulkInsert_size (data : List Nat) (s : DynPGM)
    (hfresh : ∀ k ∈ data, s.find k = none) (hnd : data.Nodup) :
    (bulkInsert dynOps s data).size = s.size + data.length := by
  induction data generalizing s with
  | nil => rfl
  | cons a rest ih =>
    rw [List.nodup_cons] at hnd
    rw [bulkInsert_cons, dynOps_insert_or_assign]
    have hfresh1 : ∀ k ∈ rest, (DynPGM.insert_or_assign s a 1).find k = none := by
      intro k hk
      have hka : k ≠ a := fun he => hnd.1 (he ▸ hk)
      rw [DynPGM.find_insert_ne s a 1 k hka]
      exact hfresh k (by simp [hk])
    rw [ih _ hfresh1 hnd.2]
    have hlen := DynPGM.length_insert_fresh s a 1 (hfresh a (by simp))
    rw [DynPGM.size, DynPGM.size]
    simp only [List.length_cons]
    omega

theorem keysSorted_bulkInsert (data : List Nat) (s : DynPGM)
    (hs : s.KeysSorted) : (bulkInsert dynOps s data).KeysSorted := by
  induction data generalizing s with
  | nil => exact hs
  | cons a rest ih =>
    rw [bulkInsert_cons]
    exact ih _ (DynPGM.keysSorted_insert s a 1 hs)

theorem halfDelete_find_not_mem (data : List Nat) (s : DynPGM) (c k : Nat)
    (h : k ∉ data) : (halfDelete dynOps s data c).1.find k = s.find k := by
  induction data generalizing s c with
  | nil => rfl
  | cons a rest ih =>
    have hka : k ≠ a := fun he => h (by simp [he])
    have hkr : k ∉ rest := fun hm => h (by simp [hm])
    rw [halfDelete]
    by_cases hc : c % 2 = 0
    · rw [if_pos hc]
      rw [ih _ _ hkr]
      exact DynPGM.find_erase_ne s a k hka
    · rw [if_neg hc]
      exact ih _ _ hkr

theorem keysSorted_halfDelete (data : List Nat) (s : DynPGM) (c : Nat)
    (hs : s.KeysSorted) : (halfDelete dynOps s data c).1.KeysSorted := by
  induction data generalizing s c with
  | nil => exact hs
  | cons a rest ih =>
    rw [halfDelete]
    by_cases hc : c % 2 = 0
    · rw [if_pos hc]
      exact ih _ _ (DynPGM.keysSorted_erase s a hs)
    · rw [if_neg hc]
      exact ih _ _ hs

theorem halfDelete_find_getD (data : List Nat) (s : DynPGM) (c : Nat)
    (hs : s.KeysSorted) (hnd : data.Nodup) :
    ∀ i, i < data.length →
      (halfDelete dynOps s data c).1.find (data.getD i 0) =
        if (c + i) % 2 = 0 then none else s.find (data.getD i 0) := by
  induction data generalizing s c with
  | nil => intro i hi; simp at hi
  | cons a rest ih =>
    rw [List.nodup_cons] at hnd
    intro i hi
    rw [halfDelete]
    match i with
    | 0 =>
      simp only [List.getD_cons_zero, Nat.add_zero]
      by_cases hc : c % 2 = 0
      · rw [if_pos hc, if_pos hc]
        rw [halfDelete_find_not_mem rest _ _ a hnd.1]
        exact DynPGM.find_erase_self s a hs
      · rw [if_neg hc, if_neg hc]
        exact halfDelete_find_not_mem rest s _ a hnd.1
    | j + 1 =>
      simp only [List.getD_cons_succ]
      have hj : j < rest.length := by
        simp at hi
        omega
      have hmem : rest.getD j 0 ∈ rest := by
        rw [List.getD_eq_getElem rest 0 hj]
        exact List.getElem_mem hj
      have hne : rest.getD j 0 ≠ a := fun he => hnd.1 (he ▸ hmem)
      by_cases hc : c % 2 = 0
      · rw [if_pos hc]
        rw [ih (dynOps.erase s a) (c + 1) (DynPGM.keysSorted_erase s a hs) hnd.2 j hj]
        have harith : (c + 1 + j) % 2 = (c + (j + 1)) % 2 := by
          have : c + 1 + j = c + (j + 1) := by omega
          rw [this]
        rw [harith]
        by_cases hp : (c + (j + 1)) % 2 = 0
        · rw [if_pos hp, if_pos hp]
        · rw [if_neg hp, if_neg hp]
          exact DynPGM.find_erase_ne s a _ hne
      · rw [if_neg hc]
        rw [ih _ _ hs hnd.2 j hj]
        have harith : (c + 1 + j) % 2 = (c + (j + 1)) % 2 := by
          have : c + 1 + j = c + (j + 1) := by omega
          rw [this]
        rw [harith]

/-- The lower-bound position of a window is unique. -/
theorem isLB_unique {D : List Nat} {k lo hi r1 r2 : Nat}
    (h1 : IsLB D k lo hi r1) (h2 : IsLB D k lo hi r2) : r1 = r2 := by
  obtain ⟨hl1, hh1, A1, B1⟩ := h1
  obtain ⟨hl2, hh2, A2, B2⟩ := h2
  by_contra hne
  rcases Nat.lt_or_ge r1 r2 with hlt | hge
  · have ha := A2 r1 hl1 hlt
    have hb := B1 r1 (Nat.le_refl _) (by omega)
    omega
  · have hlt : r2 < r1 := by omega
    have ha := A1 r2 hl2 hlt
    have hb := B2 r2 (Nat.le_refl _) (by omega)
    omega

theorem measureTally_aux (dataset : List Nat) (srch : Nat → Nat × Nat) :
    ∀ (qs : List (Nat × Nat)) (t : Nat × Nat),
      qs.foldl (oracleStep dataset srch) t =
        (t.1 + qs.countP (fun q => !(mismatch dataset srch q)),
          t.2 + qs.countP (mismatch dataset srch)) := by
  intro qs
  induction qs with
  | nil => intro t; simp
  | cons q rest ih =>
    intro t
    rw [List.foldl_cons, ih, oracleStep]
    cases hM : mismatch dataset srch q
    · simp [hM, List.countP_cons]
      omega
    · simp [hM, List.countP_cons]
      omega

theorem countP_not_add_countP {α : Type} (p : α → Bool) (l : List α) :
    l.countP (fun a => !p a) + l.countP p = l.length := by
  induction l with
  | nil => rfl
  | cons a t ih =>
    rw [List.countP_cons, List.countP_cons]
    cases h : p a
    · simp [h]
      omega
    · simp [h]
      omega

theorem lbbLoopReads_bounds (D : List Nat) (v : Nat) :
    ∀ n f, ∀ a ∈ lbbLoopReads D v f n, f < a ∧ a < f + n := by
  intro n
  induction n using Nat.strong_induction_on with
  | _ n ih =>
    intro f a ha
    rw [lbbLoopReads] at ha
    by_cases h : 1 < n
    · rw [dif_pos h] at ha
      rcases List.mem_cons.mp ha with h1 | h1
      · subst h1
        omega
      · by_cases hc : D.getD (f + n / 2) 0 < v
        · rw [if_pos hc] at h1
          have := ih (n - n / 2) (by omega) (f + n / 2) a h1
          omega
        · rw [if_neg hc] at h1
          have := ih (n - n / 2) (by omega) f a h1
          omega
    · rw [dif_neg h] at ha
      simp at ha

/-- Claim C1 (status: code_bug).  The claim states that every generated
query draws an index from the half-open range `[0, len(Dataset))`, so
that every generated key is an element of the dataset.  The code
constructs `std::uniform_int_distribution<size_t>(0, dataset.size())`,
whose support is the CLOSED range `[0, dataset.size()]`: the draw
`dataset.size()` is possible, and reading `dataset[dataset.size()]` is
out of bounds.  Witnessed here on dataset `[5]` with the in-support draw
`1 = dataset.size()`: the generated key (modelled default value 0 of the
out-of-range read) is not an element of the dataset. -/
theorem C1_generate_queries_out_of_range_draw :
    distSupport ([5] : List Nat).length 1 ∧
    ¬ 1 < ([5] : List Nat).length ∧
    generate_queries [5] (fun _ => 1) 1 = [(0, 0)] ∧
    (0 : Nat) ∉ ([5] : List Nat) := by
  have h1 : ([5] : List Nat).getD 1 0 = 0 := rfl
  have h2 : lower_bound [5] 0 0 1 = 0 := by
    rw [lower_bound, lbStdLoop]
    norm_num
    rw [lbStdLoop]
    norm_num
  refine ⟨by unfold distSupport; decide, by decide, ?_, by decide⟩
  rw [generate_queries]
  simp [List.range_succ, h1, h2]

/-- Claim C2 (status: confirmed).  For every sorted dataset `D`
(duplicates allowed), key `k`, and `ApproxRange [lo, hi)` with
`lo <= hi <= len(D)` containing the true lower-bound position of `k`
over the full dataset, the branchless refiner over `[lo, hi)` returns
exactly that full-dataset lower-bound position. -/
theorem C2_branchless_refines_full_lower_bound (D : List Nat)
    (k lo hi : Nat) (hD : SortedLE D) (hhi : hi ≤ D.length)
    (hlo : lo ≤ lower_bound D k 0 D.length)
    (hlt : lower_bound D k 0 D.length < hi) :
    lower_bound_branchless D k lo hi = lower_bound D k 0 D.length := by
  obtain ⟨hf1, hf2, hfA, hfB⟩ :=
    lower_bound_isLB D k hD (Nat.zero_le D.length) (Nat.le_refl D.length)
  have hwin : IsLB D k lo hi (lower_bound D k 0 D.length) :=
    ⟨hlo, Nat.le_of_lt hlt, fun j hj1 hj2 => hfA j (Nat.zero_le j) hj2,
      fun j hj1 hj2 => hfB j hj1 (by omega)⟩
  exact isLB_unique (branchless_isLB D k hD (by omega) hhi) hwin

theorem C2_branchless_refines_full_lower_bound_witness :
    SortedLE [5] ∧ (1 : Nat) ≤ ([5] : List Nat).length ∧
    lower_bound_branchless [5] 3 0 1 = lower_bound [5] 3 0 ([5] : List Nat).length := by
  have hlb : lower_bound [5] 3 0 ([5] : List Nat).length = 0 := by
    rw [lower_bound, lbStdLoop]
    norm_num
    rw [lbStdLoop]
    norm_num
  refine ⟨?_, by decide, ?_⟩
  · unfold SortedLE
    decide
  · exact C2_branchless_refines_full_lower_bound [5] 3 0 1
      (by unfold SortedLE; decide) (by decide)
      (by rw [hlb]) (by rw [hlb]; norm_num)

/-- Claim C3 counterexample.  The claim states that for every window
with `hi - lo <= 1` the branchless refiner returns `lo`; but on dataset
`[0]` with window `[0, 1)` and key `1` it returns `lo + 1 = 1`, because
the final step reads the element at `first` and advances past it when
that element is less than the key. -/
theorem C3_counterexample :
    (1 : Nat) - 0 ≤ 1 ∧ lower_bound_branchless [0] 1 0 1 ≠ 0 := by
  refine ⟨by norm_num, ?_⟩
  rw [lower_bound_branchless, lbbLoop]
  norm_num

/-- Claim C3 (status: corrected).  For every window `[lo, hi)` with
`hi - lo <= 1` the halving loop performs no iteration and the refiner
returns `lo` plus one exactly when the element stored at index `lo` is
less than the key (so `lo` itself only when that element is not less
than the key, as is the case whenever the ApproxRange contract holds). -/
theorem C3_degenerate_window (D : List Nat) (k lo hi : Nat)
    (h : hi - lo ≤ 1) :
    lower_bound_branchless D k lo hi =
      lo + if D.getD lo 0 < k then 1 else 0 := by
  rw [lower_bound_branchless, lbbLoop, dif_neg (show ¬ 1 < hi - lo by omega)]

theorem C3_degenerate_window_witness :
    (1 : Nat) - 0 ≤ 1 ∧
    lower_bound_branchless [0] 1 0 1 =
      0 + if ([0] : List Nat).getD 0 0 < 1 then 1 else 0 :=
  ⟨by norm_num, C3_degenerate_window [0] 1 0 1 (by norm_num)⟩

/-- Claim C4 counterexample.  The claim allows every pair of bounds
`lo <= hi`, including the empty subrange `lo = hi`.  There the two
searches differ: `std::lower_bound` over an empty range returns `lo`,
while the branchless variant unconditionally reads the element at `lo`
and may return `lo + 1`.  On the sorted dataset `[0, 5]` with
`lo = hi = 1` and key `7`, branchless returns 2 and std returns 1. -/
theorem C4_counterexample :
    SortedLE [0, 5] ∧ (1 : Nat) ≤ 1 ∧ 1 ≤ ([0, 5] : List Nat).length ∧
    lower_bound_branchless [0, 5] 7 1 1 ≠ lower_bound [0, 5] 7 1 1 := by
  refine ⟨by unfold SortedLE; decide, by norm_num, by norm_num, ?_⟩
  have h1 : lower_bound_branchless [0, 5] 7 1 1 = 2 := by
    rw [lower_bound_branchless, lbbLoop, dif_neg (by norm_num)]
    norm_num
  have h2 : lower_bound [0, 5] 7 1 1 = 1 := by
    rw [lower_bound]
    norm_num
    rw [lbStdLoop, dif_neg (by norm_num)]
  omega

/-- Claim C4 (status: corrected).  The branchless refinement search and
the standard branching binary search agree on every NON-EMPTY in-bounds
subrange of a sorted dataset: for `lo < hi <= len(D)`,
`lower_bound_branchless` over `D[lo, hi)` returns the same position as
`std::lower_bound` over the same subrange.  (On empty subranges they can
differ, see the counterexample.) -/
theorem C4_branchless_matches_std_on_nonempty (D : List Nat)
    (k lo hi : Nat) (hD : SortedLE D) (hlh : lo < hi) (hhi : hi ≤ D.length) :
    lower_bound_branchless D k lo hi = lower_bound D k lo hi :=
  isLB_unique (branchless_isLB D k hD hlh hhi)
    (lower_bound_isLB D k hD (Nat.le_of_lt hlh) hhi)

theorem C4_branchless_matches_std_on_nonempty_witness :
    SortedLE [1, 3, 3, 7, 9] ∧ (1 : Nat) < 4 ∧ 4 ≤ ([1, 3, 3, 7, 9] : List Nat).length ∧
    lower_bound_branchless [1, 3, 3, 7, 9] 8 1 4 = lower_bound [1, 3, 3, 7, 9] 8 1 4 :=
  ⟨by unfold SortedLE; decide, by norm_num, by norm_num,
    C4_branchless_matches_std_on_nonempty [1, 3, 3, 7, 9] 8 1 4
      (by unfold SortedLE; decide) (by norm_num) (by norm_num)⟩

/-- Claim C5 (status: confirmed, against the spec-modelled
`DynamicPGMIndex`).  Starting from an empty dynamic index, after
inserting each of the `M` unique ascending samples the index reports
`size() = M`; after the HalfDelete pass (erasing every even-ordinal
sample, 0-indexed), `find` returns the end marker (`none`) for every
even-ordinal sample and a located marker for every odd-ordinal
sample. -/
theorem C5_dynamic_workload_driver (samples : List Nat)
    (hasc : List.Pairwise (· < ·) samples) :
    (driverRun dynOps samples).afterInsert.size = samples.length ∧
    ∀ i, i < samples.length →
      (driverRun dynOps samples).final.find (samples.getD i 0) =
        if i % 2 = 0 then none else some 1 := by
  have hnd : samples.Nodup := List.Pairwise.imp (fun h => Nat.ne_of_lt h) hasc
  constructor
  · show (bulkInsert dynOps dynOps.empty samples).size = samples.length
    rw [dynOps_empty]
    rw [bulkInsert_size samples DynPGM.empty (fun k _ => rfl) hnd]
    simp [DynPGM.empty, DynPGM.size]
  · intro i hi
    show (halfDelete dynOps (bulkInsert dynOps dynOps.empty samples) samples 0).1.find
          (samples.getD i 0) = _
    rw [dynOps_empty]
    have hs0 : (bulkInsert dynOps DynPGM.empty samples).KeysSorted :=
      keysSorted_bulkInsert samples DynPGM.empty List.Pairwise.nil
    rw [halfDelete_find_getD samples _ 0 hs0 hnd i hi]
    simp only [Nat.zero_add]
    by_cases hp : i % 2 = 0
    · rw [if_pos hp, if_pos hp]
    · rw [if_neg hp, if_neg hp]
      have hmem : samples.getD i 0 ∈ samples := by
        rw [List.getD_eq_getElem samples 0 hi]
        exact List.getElem_mem hi
      exact bulkInsert_find_mem samples DynPGM.empty _ hmem hnd

theorem C5_dynamic_workload_driver_witness :
    List.Pairwise (· < ·) [2, 4, 6, 8] ∧
    ((driverRun dynOps [2, 4, 6, 8]).afterInsert.size = ([2, 4, 6, 8] : List Nat).length ∧
      ∀ i, i < ([2, 4, 6, 8] : List Nat).length →
        (driverRun dynOps [2, 4, 6, 8]).final.find (([2, 4, 6, 8] : List Nat).getD i 0) =
          if i % 2 = 0 then none else some 1) :=
  ⟨by decide, C5_dynamic_workload_driver [2, 4, 6, 8] (by decide)⟩

/-- Claim C6 counterexample.  The claim states the driver asserts the
reported element count equals `M` and terminates on a mismatch.  The
driver has no such assertion: it is straight-line code.  Run against an
index whose `size()` reports 0, the reported count diverges from
`M = 2`, yet the run is not aborted and the deletion phase still runs
(it erases the even-ordinal sample 1). -/
theorem C6_counterexample :
    (driverRun brokenSizeOps [1, 2]).reportedCount ≠ ([1, 2] : List Nat).length ∧
    (driverRun brokenSizeOps [1, 2]).aborted = false ∧
    (driverRun brokenSizeOps [1, 2]).eraseCalls = [1] := by
  refine ⟨by decide, rfl, rfl⟩

/-- Claim C6 (status: corrected).  After the bulk-insert phase the
driver prints the index's reported element count — which, for the
spec-modelled `DynamicPGMIndex` and unique samples, does equal `M` — but
it performs no assertion on it: the run proceeds to the deletion phase
unconditionally, for every index implementation and every sample
list. -/
theorem C6_no_assert_after_bulk_insert (samples : List Nat)
    (hnd : samples.Nodup) :
    (driverRun dynOps samples).reportedCount = samples.length ∧
    (driverRun dynOps samples).aborted = false ∧
    ∀ (S : Type) (ops : IndexOps S) (data : List Nat),
      (driverRun ops data).aborted = false := by
  refine ⟨?_, rfl, fun S ops data => rfl⟩
  show dynOps.size (bulkInsert dynOps dynOps.empty samples) = samples.length
  rw [dynOps_size, dynOps_empty]
  rw [bulkInsert_size samples DynPGM.empty (fun k _ => rfl) hnd]
  simp [DynPGM.empty, DynPGM.size]

theorem C6_no_assert_after_bulk_insert_witness :
    ([7, 9] : List Nat).Nodup ∧
    ((driverRun dynOps [7, 9]).reportedCount = ([7, 9] : List Nat).length ∧
      (driverRun dynOps [7, 9]).aborted = false ∧
      ∀ (S : Type) (ops : IndexOps S) (data : List Nat),
        (driverRun ops data).aborted = false) :=
  ⟨by decide, C6_no_assert_after_bulk_insert [7, 9] (by decide)⟩

/-- Claim C7 (status: confirmed).  For every workload, the oracle's
final tally is exactly (number of queries whose refined position equals
the expected position, number of queries where it differs): each query
increments exactly one of the two counters, `incorrect` exactly on
mismatch, and the two counters sum to the workload size.  The processing
function is total — a mismatch is tallied and the fold continues with
the next query, never aborting. -/
theorem C7_oracle_tally (dataset : List Nat) (srch : Nat → Nat × Nat)
    (queries : List (Nat × Nat)) :
    measureTally dataset srch queries =
      (queries.countP fun q => !(mismatch dataset srch q),
        queries.countP (mismatch dataset srch)) ∧
    (measureTally dataset srch queries).1 +
        (measureTally dataset srch queries).2 = queries.length := by
  have h := measureTally_aux dataset srch queries (0, 0)
  rw [measureTally, h]
  refine ⟨by simp, ?_⟩
  have hlen := countP_not_add_countP (mismatch dataset srch) queries
  simp only [Nat.zero_add]
  omega

/-- Claim C8 (status: confirmed).  If the dataset file cannot be opened
the loader reports the failure and the process exits with failure status
(modelled by `LoadResult.fatal`); otherwise it reads the 64-bit count
header and returns a buffer whose length equals that header count, for
every header value and every file content. -/
theorem C8_load_data :
    load_data none = LoadResult.fatal ∧
    ∀ (size : Nat) (vals : List Nat),
      load_data (some (size, vals)) =
        LoadResult.ok (vals.take size ++ List.replicate (size - vals.length) 0) ∧
      (vals.take size ++ List.replicate (size - vals.length) 0).length = size := by
  refine ⟨rfl, fun size vals => ⟨rfl, ?_⟩⟩
  rw [List.length_append, List.length_take, List.length_replicate]
  omega

/-- Claim C9 (status: confirmed, against the spec-modelled
`DynamicPGMIndex`).  Erasing an absent key is a no-op: the stored pairs
and the reported `size()` are unchanged.  In particular, as in the
playground example, after `insert_or_assign(4, 8)` into an empty index
followed by `erase(4)`, `find(4)` returns the end marker and `size()`
is 0. -/
theorem C9_erase_absent_is_noop :
    (∀ (s : DynPGM) (k : Nat), s.find k = none →
        s.erase k = s ∧ (s.erase k).size = s.size) ∧
    ((DynPGM.empty.insert_or_assign 4 8).erase 4).find 4 = none ∧
    ((DynPGM.empty.insert_or_assign 4 8).erase 4).size = 0 := by
  refine ⟨fun s k h => ?_, rfl, rfl⟩
  have he := DynPGM.erase_absent s k h
  exact ⟨he, by rw [he]⟩

theorem C9_erase_absent_is_noop_witness :
    DynPGM.find [(1, 2)] 7 = none ∧
    DynPGM.erase [(1, 2)] 7 = [(1, 2)] ∧
    DynPGM.size (DynPGM.erase [(1, 2)] 7) = DynPGM.size [(1, 2)] :=
  ⟨rfl, (C9_erase_absent_is_noop.1 [(1, 2)] 7 rfl).1,
    (C9_erase_absent_is_noop.1 [(1, 2)] 7 rfl).2⟩

/-- Claim C10 (status: confirmed).  Under the precondition
`lo < hi <= len(D)` every dataset index read by the branchless refiner
lies in `[lo, hi)` and the returned position lies in `[lo, hi]`.  The
non-emptiness precondition is required at the interface: on an empty
window `[p, p)` the final step still unconditionally reads index `p`,
which lies outside `[p, p)`. -/
theorem C10_reads_within_window (D : List Nat) (k lo hi : Nat)
    (hlh : lo < hi) (hhi : hi ≤ D.length) :
    (∀ a ∈ branchlessReads D k lo hi, lo ≤ a ∧ a < hi) ∧
    lo ≤ lower_bound_branchless D k lo hi ∧
    lower_bound_branchless D k lo hi ≤ hi ∧
    ∀ p : Nat, branchlessReads D k p p = [p] := by
  obtain ⟨hb1, hb2⟩ := lbbLoop_bounds D k (hi - lo) lo (by omega)
  refine ⟨?_, ?_, ?_, ?_⟩
  · intro a ha
    rw [branchlessReads] at ha
    rcases List.mem_append.mp ha with h | h
    · have := lbbLoopReads_bounds D k (hi - lo) lo a h
      omega
    · simp at h
      subst h
      omega
  · rw [lower_bound_branchless]
    by_cases hc : D.getD (lbbLoop D k lo (hi - lo)) 0 < k
    · rw [if_pos hc]
      omega
    · rw [if_neg hc]
      omega
  · rw [lower_bound_branchless]
    by_cases hc : D.getD (lbbLoop D k lo (hi - lo)) 0 < k
    · rw [if_pos hc]
      omega
    · rw [if_neg hc]
      omega
  · intro p
    rw [branchlessReads, Nat.sub_self, lbbLoopReads, dif_neg (by omega),
      lbbLoop, dif_neg (by omega), List.nil_append]

theorem C10_reads_within_window_witness :
    (0 : Nat) < 1 ∧ 1 ≤ ([5] : List Nat).length ∧
    ((∀ a ∈ branchlessReads [5] 0 0 1, 0 ≤ a ∧ a < 1) ∧
      0 ≤ lower_bound_branchless [5] 0 0 1 ∧
      lower_bound_branchless [5] 0 0 1 ≤ 1 ∧
      ∀ p : Nat, branchlessReads [5] 0 p p = [p]) :=
  ⟨by norm_num, by norm_num,
    C10_reads_within_window [5] 0 0 1 (by norm_num) (by norm_num)⟩

end PGM
